import Mathlib

/-!
Verification of the fast-allocator / list repository (`src/fastallocator.h`)
against its natural-language specification.

The C++ source is shallowly embedded: each C++ member function becomes a Lean
function on an explicit state record.  Raw memory blocks handed out by the
pool are modelled as pairs `(chunk index, byte offset)`; the heap of list
nodes is modelled as a partial function from natural-number addresses to
nodes, with `Option Nat` playing the role of a nullable `Node*`.
-/

/-! ## FixedAllocator (the Pool)

Embeds `FixedAllocator<chunkSize>` from `src/fastallocator.h` lines 23-119.
A block address is `(chunk index, byte offset)`: the C++ code computes
`chunks_.back() + size_ * chunkSize`, i.e. offset `size_ * chunkSize` inside
the most recent chunk.  `chunks_` records each chunk by its block capacity
(the `void*` payload itself is opaque); `returned_` is the free list, kept as
a stack with the head as `back()` (C++ `push_back`/`back`/`pop_back`). -/

/-- A block address issued by a pool: (index of owning chunk, byte offset). -/
abbrev Block := Nat × Nat

structure FixedAllocator where
  capacity_ : Nat
  size_ : Nat
  chunks_ : List Nat
  returned_ : List Block
deriving Repr, DecidableEq

namespace FixedAllocator

/-- The constructor (lines 50-54): `capacity_ = 32`, one chunk of 32 blocks. -/
def init : FixedAllocator :=
  { capacity_ := 32, size_ := 0, chunks_ := [32], returned_ := [] }

/-- `allocate_memory_` (lines 59-65): double the capacity, append a chunk of
the new capacity, reset the cursor `size_` to zero. -/
def allocate_memory_ (a : FixedAllocator) : FixedAllocator :=
  { capacity_ := 2 * a.capacity_
    size_ := 0
    chunks_ := a.chunks_ ++ [2 * a.capacity_]
    returned_ := a.returned_ }

/-- `allocate` (lines 85-101): pop the free list if non-empty; otherwise grow
when the cursor reached capacity, then issue the block at byte offset
`size_ * chunkSize` in the last chunk and advance the cursor. -/
def allocate (chunkSize : Nat) (a : FixedAllocator) : Block × FixedAllocator :=
  match a.returned_ with
  | memory :: rest => (memory, { a with returned_ := rest })
  | [] =>
    let a' := if a.size_ = a.capacity_ then allocate_memory_ a else a
    ((a'.chunks_.length - 1, a'.size_ * chunkSize),
      { a' with size_ := a'.size_ + 1 })

/-- `deallocate` (lines 106-109): push the pointer on the free list. -/
def deallocate (a : FixedAllocator) (ptr : Block) : FixedAllocator :=
  { a with returned_ := ptr :: a.returned_ }

/-- One external operation on a pool: an acquire, or a release of a block. -/
inductive FOp where
  | acq : FOp
  | rel : Block → FOp
deriving Repr, DecidableEq

/-- Remove the first occurrence of a block from a ghost list. -/
def removeFirst : List Block → Block → List Block
  | [], _ => []
  | x :: xs, b => if x = b then xs else x :: removeFirst xs b

/-- Ghost-instrumented step: the pool state together with the list of
currently-outstanding blocks (most recently issued first). -/
def stepG (chunkSize : Nat) (st : FixedAllocator × List Block) (op : FOp) :
    FixedAllocator × List Block :=
  match op with
  | .acq =>
    let r := allocate chunkSize st.1
    (r.2, r.1 :: st.2)
  | .rel b => (deallocate st.1 b, removeFirst st.2 b)

/-- Run a sequence of operations from a ghost-instrumented state. -/
def runG (chunkSize : Nat) (st : FixedAllocator × List Block)
    (ops : List FOp) : FixedAllocator × List Block :=
  ops.foldl (stepG chunkSize) st

/-- Well-formed call sequences: `rel b` is only ever passed a block that is
currently outstanding (no double-return, no foreign pointers). -/
def wfOps (chunkSize : Nat) (st : FixedAllocator × List Block) :
    List FOp → Bool
  | [] => true
  | .acq :: ops => wfOps chunkSize (stepG chunkSize st .acq) ops
  | .rel b :: ops =>
    st.2.contains b && wfOps chunkSize (stepG chunkSize st (.rel b)) ops

/-- The pool invariant: positive capacity, the capacity field mirrors the
last chunk, the cursor is within bounds, the outstanding and free blocks are
pairwise distinct, and every such block lies at a `chunkSize`-aligned offset
inside its owning chunk (strictly below the cursor in the last chunk). -/
def Inv (chunkSize : Nat) (st : FixedAllocator × List Block) : Prop :=
  0 < st.1.capacity_ ∧
  st.1.chunks_.getLast? = some st.1.capacity_ ∧
  st.1.size_ ≤ st.1.capacity_ ∧
  (st.2 ++ st.1.returned_).Nodup ∧
  ∀ b ∈ st.2 ++ st.1.returned_,
    ∃ c j, st.1.chunks_[b.1]? = some c ∧ b.2 = j * chunkSize ∧ j < c ∧
      (b.1 = st.1.chunks_.length - 1 → j < st.1.size_)

end FixedAllocator

/-! ## FastAllocator (the Dispatcher)

Embeds `FastAllocator<T>` (lines 131-181).  `sizeof(T)` becomes the explicit
argument `sizeT`.  The observable behaviour of `allocate`/`deallocate` is
which backend serves the request, and with what size. -/

/-- Where an allocation request is routed. -/
inductive AllocResult where
  | pool : Nat → AllocResult      -- served by the FixedAllocator of this block size
  | general : Nat → AllocResult   -- served by `::operator new` with this byte count
deriving Repr, DecidableEq

namespace FastAllocator

/-- `maxSize` (line 134). -/
def maxSize : Nat := 32

/-- `allocate` (lines 158-166): pool when `sizeof(T) <= maxSize && n <= 1`,
otherwise `::operator new(n * sizeof(T))`. -/
def allocate (sizeT n : Nat) : AllocResult :=
  if sizeT ≤ maxSize ∧ n ≤ 1 then .pool sizeT else .general (n * sizeT)

/-- `deallocate` (lines 168-175): the same test picks the return path. -/
def deallocate (sizeT n : Nat) : AllocResult :=
  if sizeT ≤ maxSize ∧ n ≤ 1 then .pool sizeT else .general (n * sizeT)

end FastAllocator

/-! ## List<T, Allocator>

Embeds `List` (lines 193-571).  Node storage is a heap
`Nat → Option (Node T)`; `Option Nat` models a nullable `Node*`
(`none` = `nullptr`).  Node allocation hands out consecutive fresh
addresses.  `elem_ : Option T` distinguishes constructed element storage
(`some v`) from raw, never-constructed storage (`none`) — the two sentinel
nodes are allocated but never constructed (lines 265-266). -/

/-- A nullable node pointer. -/
abbrev Ptr := Option Nat

/-- `List::Node` (lines 236-242): element storage plus `next`/`prev`. -/
structure LNode (T : Type) where
  elem_ : Option T
  next : Ptr
  prev : Ptr
deriving Repr, DecidableEq

/-- The state of one `List` object: node heap, fresh-address counter,
`size_`, and the two sentinel pointers `begin_`/`end_` (lines 258-260). -/
structure ListState (T : Type) where
  heap : Nat → Option (LNode T)
  fresh : Nat
  size_ : Nat
  begin_ : Ptr
  end_ : Ptr

namespace ListState

variable {T : Type}

/-- Dereference a nullable pointer in the heap. -/
def derefPtr (s : ListState T) (p : Ptr) : Option (LNode T) :=
  p.bind s.heap

/-- Point-update of the heap at an (existing) address. -/
def hupd (h : Nat → Option (LNode T)) (a : Nat) (f : LNode T → LNode T) :
    Nat → Option (LNode T) :=
  fun x => if x = a then (h x).map f else h x

/-- The default constructor `List(alloc)` (lines 263-275): allocate two raw
(unconstructed) sentinel nodes and link them. -/
def listNew : ListState T :=
  { heap := fun x =>
      if x = 0 then some ⟨none, some 1, none⟩
      else if x = 1 then some ⟨none, none, some 0⟩
      else none
    fresh := 2
    size_ := 0
    begin_ := some 0
    end_ := some 1 }

/-- `begin()` (lines 523-526): `iterator(begin_->next)`. -/
def beginIt (s : ListState T) : Ptr :=
  (s.derefPtr s.begin_).bind LNode.next

/-- `end()` (lines 532-535): `iterator(end_)`. -/
def endIt (s : ListState T) : Ptr :=
  s.end_

/-- `insert_before_(ptr, value)` (lines 386-402): allocate and construct a
new node holding `value`, with `next = ptr` and `prev = ptr->prev`; rewire
`ptr->prev->next` (or `begin_` when `ptr->prev` is null); set
`ptr->prev = newbie`; increment `size_`.  Dereferencing a dangling or null
pointer is undefined behaviour in the source; the model leaves the state
unchanged in that case. -/
def insert_before_ (s : ListState T) (p : Ptr) (value : T) : ListState T :=
  match p with
  | none => s
  | some a =>
    match s.heap a with
    | none => s
    | some nd =>
      let newbie := s.fresh
      let h1 : Nat → Option (LNode T) := fun x =>
        if x = newbie then some ⟨some value, some a, nd.prev⟩ else s.heap x
      let s1 : ListState T := { s with heap := h1, fresh := s.fresh + 1 }
      let s2 : ListState T :=
        match nd.prev with
        | some pv =>
          let h2 := hupd s1.heap pv (fun m => { m with next := some newbie })
          { s1 with heap := h2 }
        | none => { s1 with begin_ := some newbie }
      let h3 := hupd s2.heap a (fun m => { m with prev := some newbie })
      { s2 with heap := h3, size_ := s2.size_ + 1 }

/-- `erase_(ptr)` (lines 366-384): rewire `ptr->next->prev` (or `end_`) and
`ptr->prev->next` (or `begin_`), then destroy and deallocate the node and
decrement `size_`. -/
def erase_ (s : ListState T) (p : Ptr) : ListState T :=
  match p with
  | none => s
  | some a =>
    match s.heap a with
    | none => s
    | some nd =>
      let s1 : ListState T :=
        match nd.next with
        | some nx =>
          let h1 := hupd s.heap nx (fun m => { m with prev := nd.prev })
          { s with heap := h1 }
        | none => { s with end_ := nd.prev }
      let s2 : ListState T :=
        match nd.prev with
        | some pv =>
          let h2 := hupd s1.heap pv (fun m => { m with next := nd.next })
          { s1 with heap := h2 }
        | none => { s1 with begin_ := nd.next }
      let h3 : Nat → Option (LNode T) := fun x => if x = a then none else s2.heap x
      { s2 with heap := h3, size_ := s2.size_ - 1 }

/-- `insert(iterator, value)` (lines 560-564): call `insert_before_`, then
return `iterator(iter.ptr_->next)` read from the post-insertion heap. -/
def insert (s : ListState T) (p : Ptr) (value : T) : Ptr × ListState T :=
  let s' := s.insert_before_ p value
  ((s'.derefPtr p).bind LNode.next, s')

/-- `erase(iterator)` (lines 566-571): capture `iterator(iter.ptr_->next)`
before unlinking, call `erase_`, return the captured iterator. -/
def erase (s : ListState T) (p : Ptr) : Ptr × ListState T :=
  ((s.derefPtr p).bind LNode.next, s.erase_ p)

/-- `push_front(value)` (lines 356-359): `insert(begin(), value)`. -/
def push_front (s : ListState T) (value : T) : ListState T :=
  (s.insert s.beginIt value).2

/-- `push_back(value)` (lines 361-364): `insert(end(), value)`. -/
def push_back (s : ListState T) (value : T) : ListState T :=
  (s.insert s.endIt value).2

/-- `pop_front()` (lines 342-347): `if (size_) erase(begin())`. -/
def pop_front (s : ListState T) : ListState T :=
  if s.size_ ≠ 0 then (s.erase s.beginIt).2 else s

/-- `pop_back()` (lines 349-354): `if (size_) erase(--end())`, where
`--end()` is `iterator(end_->prev)`. -/
def pop_back (s : ListState T) : ListState T :=
  if s.size_ ≠ 0 then (s.erase ((s.derefPtr s.end_).bind LNode.prev)).2 else s

/-- Forward traversal of the element range, as the copy loop (lines
330-335) performs it: start at `begin()`, stop on pointer equality with
`end()` (iterator `!=` compares `ptr_`, line 519), read each node's element.
Fuel-bounded; `none` on exhausted fuel, a dangling pointer, or
unconstructed element storage. -/
def toListAux (s : ListState T) : Nat → Ptr → Option (List T)
  | 0, p => if p = s.end_ then some [] else none
  | fuel + 1, p =>
    if p = s.end_ then some []
    else
      match s.derefPtr p with
      | none => none
      | some nd =>
        match nd.elem_ with
        | none => none
        | some v => (toListAux s fuel nd.next).map (v :: ·)

/-- The observable element sequence of a list state. -/
def toList (s : ListState T) : Option (List T) :=
  toListAux s s.size_ s.beginIt

/-- Reverse traversal from `rbegin()` to `rend()` (lines 541-558):
`rbegin() = reverse_iterator(end_)`, `rend() = reverse_iterator(begin_->next)`;
a `std::reverse_iterator` dereferences to `*(prev(base))` and `++` moves its
base backwards, so the walk yields `base->prev->elem_` while
`base ≠ begin_->next`. -/
def toListRevAux (s : ListState T) (stop : Ptr) : Nat → Ptr → Option (List T)
  | 0, p => if p = stop then some [] else none
  | fuel + 1, p =>
    if p = stop then some []
    else
      match s.derefPtr p with
      | none => none
      | some nd =>
        match s.derefPtr nd.prev with
        | none => none
        | some pr =>
          match pr.elem_ with
          | none => none
          | some v => (toListRevAux s stop fuel nd.prev).map (v :: ·)

/-- The element sequence observed through `rbegin()`/`rend()`. -/
def toListRev (s : ListState T) : Option (List T) :=
  toListRevAux s s.beginIt s.size_ s.end_

/-- `copy_(rhs)` (lines 330-335): push back every element of `rhs` in
iteration order.  `toList rhs` is exactly the sequence that loop reads. -/
def copy_ (s rhs : ListState T) : ListState T :=
  match toList rhs with
  | none => s
  | some vs => vs.foldl push_back s

/-- The copy constructor `List(rhs)` (lines 297-300): build an empty list,
then `copy_(rhs)`. -/
def listCopy (rhs : ListState T) : ListState T :=
  copy_ listNew rhs

/-- The clearing loop `while (size_ > 0) pop_back();` shared by
`operator=` (lines 284-286) and the destructor (lines 322-324). -/
def clearAll (s : ListState T) : ListState T :=
  pop_back^[s.size_] s

/-- `operator=(rhs)` for distinct objects (lines 277-295): pop every element
of the left-hand side, then `copy_(rhs)`.  (The allocator bookkeeping has no
observable effect on the element sequence.) -/
def assign (lhs rhs : ListState T) : ListState T :=
  copy_ (clearAll lhs) rhs

/-- The state of `operator=` observed if execution stops (e.g. by a thrown
allocation failure) after the clearing loop plus `k` iterations of the
`copy_` loop: the left-hand side holds exactly the first `k` elements of
`rhs`. -/
def assignUpTo (lhs rhs : ListState T) (k : Nat) : ListState T :=
  match toList rhs with
  | none => clearAll lhs
  | some vs => (vs.take k).foldl push_back (clearAll lhs)

/-- The iterator reached from `begin()` by `k` applications of `++`
(line 482: `ptr_ = ptr_->next`). -/
def iterAt (s : ListState T) : Nat → Ptr
  | 0 => s.beginIt
  | k + 1 => (s.derefPtr (s.iterAt k)).bind LNode.next

/-- Walk `k` iterator increments starting from an arbitrary pointer. -/
def walkN (s : ListState T) : Ptr → Nat → Ptr
  | p, 0 => p
  | p, k + 1 => s.walkN ((s.derefPtr p).bind LNode.next) k

end ListState

/-! ### Operation sequences on a list

For the length invariant (spec §8) we run arbitrary sequences of the public
mutators.  `insert`/`erase` positions are given as element indices; the run
converts an index to the iterator reached from `begin()` by that many `++`. -/

/-- One public mutating operation on a list. -/
inductive LOp (T : Type) where
  | pushF : T → LOp T
  | pushB : T → LOp T
  | insAt : Nat → T → LOp T
  | popF : LOp T
  | popB : LOp T
  | eraseAt : Nat → LOp T

namespace ListState

variable {T : Type}

/-- Execute one operation on the embedded list state. -/
def lstep (s : ListState T) : LOp T → ListState T
  | .pushF v => s.push_front v
  | .pushB v => s.push_back v
  | .insAt k v => (s.insert (s.iterAt k) v).2
  | .popF => s.pop_front
  | .popB => s.pop_back
  | .eraseAt k => (s.erase (s.iterAt k)).2

/-- Run a sequence of operations. -/
def lrun (s : ListState T) (ops : List (LOp T)) : ListState T :=
  ops.foldl lstep s

end ListState

namespace LOp

variable {T : Type}

/-- The size of the abstract sequence after one operation (pops on an empty
list are no-ops). -/
def nextN (n : Nat) : LOp T → Nat
  | .pushF _ => n + 1
  | .pushB _ => n + 1
  | .insAt _ _ => n + 1
  | .popF => n - 1
  | .popB => n - 1
  | .eraseAt _ => n - 1

/-- Position validity relative to the current length: `insAt` needs a
position in `0..n` (`end()` included), `eraseAt` a live node. -/
def legal (n : Nat) : LOp T → Bool
  | .insAt k _ => k ≤ n
  | .eraseAt k => k < n
  | _ => true

/-- All positions along the sequence are valid, starting from length `n`. -/
def validFrom (n : Nat) : List (LOp T) → Bool
  | [] => true
  | op :: ops => legal n op && validFrom (nextN n op) ops

/-- Number of successful insertions performed by the sequence. -/
def insCount : List (LOp T) → Nat
  | [] => 0
  | .pushF _ :: ops => insCount ops + 1
  | .pushB _ :: ops => insCount ops + 1
  | .insAt _ _ :: ops => insCount ops + 1
  | _ :: ops => insCount ops

/-- Number of successful removals, given the starting length `n` (a pop on
an empty list is unsuccessful). -/
def remCount (n : Nat) : List (LOp T) → Nat
  | [] => 0
  | .popF :: ops => (if n = 0 then 0 else 1) + remCount (n - 1) ops
  | .popB :: ops => (if n = 0 then 0 else 1) + remCount (n - 1) ops
  | .eraseAt _ :: ops => 1 + remCount (n - 1) ops
  | op :: ops => remCount (nextN n op) ops

/-- The effect of one operation on the abstract element sequence. -/
def specStep (l : List T) : LOp T → List T
  | .pushF v => v :: l
  | .pushB v => l ++ [v]
  | .insAt k v => l.take k ++ v :: l.drop k
  | .popF => l.tail
  | .popB => l.dropLast
  | .eraseAt k => l.take k ++ l.drop (k + 1)

/-- The abstract element sequence after a sequence of operations. -/
def specRun (l : List T) (ops : List (LOp T)) : List T :=
  ops.foldl specStep l

end LOp

/-! ### Representation predicate

`chain h pl xs nx` states that the nodes `xs` (given as address / element
pairs) are strung into a doubly-linked segment in heap `h`: each node's
`next` points to its successor (`nx` for the last), each node's `prev` to
its predecessor (`pl` for the first). -/

/-- First address of a segment, or the given fallback. -/
def headPtrD {T : Type} : List (Nat × Option T) → Ptr → Ptr
  | [], nx => nx
  | (b, _) :: _, _ => some b

/-- Last address of a segment, or the given fallback. -/
def lastPtrD {T : Type} : List (Nat × Option T) → Ptr → Ptr
  | [], pl => pl
  | (a, _) :: rest, _ => lastPtrD rest (some a)

/-- The doubly-linked-segment predicate. -/
def chain {T : Type} (h : Nat → Option (LNode T)) :
    Ptr → List (Nat × Option T) → Ptr → Prop
  | _, [], _ => True
  | pl, (a, x) :: rest, nx =>
    h a = some ⟨x, headPtrD rest nx, pl⟩ ∧ chain h (some a) rest nx

/-- The full node listing of a list state: begin sentinel (unconstructed
element), the live nodes with their values, end sentinel. -/
def nodeList {T : Type} (b e : Nat) (as : List Nat) (vs : List T) :
    List (Nat × Option T) :=
  (b, none) :: (as.zip (vs.map some) ++ [(e, none)])

/-- `ListRep s as vs`: the state `s` is a well-formed list whose live nodes have
addresses `as` and values `vs`.  The sentinels and live nodes form one
doubly-linked chain, all addresses are distinct and below the fresh-address
counter, and `size_` equals the number of live nodes. -/
def ListRep {T : Type} (s : ListState T) (as : List Nat) (vs : List T) : Prop :=
  ∃ b e,
    s.begin_ = some b ∧ s.end_ = some e ∧
    as.length = vs.length ∧
    chain s.heap none (nodeList b e as vs) none ∧
    (b :: as ++ [e]).Nodup ∧
    (∀ a ∈ b :: as ++ [e], a < s.fresh) ∧
    s.size_ = as.length

/-! ## Theorems -/

/-- Claim C5: if block `x` is released and `acquire` is then called before
any other block is released, that `acquire` returns `x`: the free list is
consumed before any fresh block is issued, most recently released first.
(The pool state is moreover exactly what it was before the release.) -/
theorem pool_lifo_reuse (chunkSize : Nat) (a : FixedAllocator) (x : Block) :
    FixedAllocator.allocate chunkSize (FixedAllocator.deallocate a x) = (x, a) := by
  rfl

/-- Claim C2 (counterexample): the dispatch condition is `n <= 1`, not
`n == 1` — at `n = 0` with an 8-byte element the pool path is taken, so the
pool is used not "exactly when n == 1". -/
theorem dispatch_condition_cex :
    ¬ ((FastAllocator.allocate 8 0 = AllocResult.pool 8) ↔ (0 = 1 ∧ 8 ≤ 32)) := by
  decide

/-- Claim C2 (amended): `allocate(n)` obtains one block from the Pool keyed
by `sizeof(T)` exactly when `n ≤ 1` and `sizeof(T)` is at or below the
32-byte threshold; for `n > 1` or larger element sizes it obtains
`n * sizeof(T)` bytes from the general-purpose allocator; and
`deallocate(pointer, n)` mirrors the same size/count test. -/
theorem dispatch_amended (sizeT n : Nat) :
    (FastAllocator.allocate sizeT n = AllocResult.pool sizeT ↔
      (n ≤ 1 ∧ sizeT ≤ FastAllocator.maxSize)) ∧
    (¬ (n ≤ 1 ∧ sizeT ≤ FastAllocator.maxSize) →
      FastAllocator.allocate sizeT n = AllocResult.general (n * sizeT)) ∧
    FastAllocator.deallocate sizeT n = FastAllocator.allocate sizeT n := by
  refine ⟨?_, ?_, rfl⟩
  · unfold FastAllocator.allocate
    by_cases h : sizeT ≤ FastAllocator.maxSize ∧ n ≤ 1
    · simp [h, h.1, h.2]
    · simp only [if_neg h]
      constructor
      · intro hc
        exact absurd hc (by simp)
      · intro hc
        exact absurd ⟨hc.2, hc.1⟩ h
  · intro h
    unfold FastAllocator.allocate
    rw [if_neg (fun hc => h ⟨hc.2, hc.1⟩)]

/-- Witness for C2 (amended) at `sizeof(T) = 40`, `n = 2`: the request goes
to the general-purpose allocator with 80 bytes. -/
theorem dispatch_amended_witness :
    FastAllocator.allocate 40 2 = AllocResult.general 80 := by
  have h := (dispatch_amended 40 2).2.1 (by decide)
  simpa using h

/-- Claim C4: the first region has capacity exactly 32 blocks; a new region
is created by `acquire` exactly when the free list is empty and the cursor
reached capacity; the new region's capacity is double the prior region's
capacity (`chunks_.getLast? = some a.capacity_` holds in every reachable
state); `allocate_memory_` resets the cursor to zero, so the triggering
acquire leaves it at 1; `release` never creates a region. -/
theorem pool_growth (chunkSize : Nat) (a : FixedAllocator)
    (hret : a.returned_ = []) (hsz : a.size_ = a.capacity_)
    (hlast : a.chunks_.getLast? = some a.capacity_) :
    FixedAllocator.init.chunks_ = [32] ∧
    FixedAllocator.init.capacity_ = 32 ∧
    (FixedAllocator.allocate chunkSize a).2.chunks_ = a.chunks_ ++ [2 * a.capacity_] ∧
    (FixedAllocator.allocate chunkSize a).2.capacity_ = 2 * a.capacity_ ∧
    (FixedAllocator.allocate_memory_ a).size_ = 0 ∧
    (FixedAllocator.allocate chunkSize a).2.size_ = 1 ∧
    (∀ (cs' : Nat) (a' : FixedAllocator),
      ((FixedAllocator.allocate cs' a').2.chunks_.length ≠ a'.chunks_.length ↔
        (a'.returned_ = [] ∧ a'.size_ = a'.capacity_))) ∧
    (∀ (a' : FixedAllocator) (b : Block),
      (FixedAllocator.deallocate a' b).chunks_ = a'.chunks_) := by
  refine ⟨rfl, rfl, ?_, ?_, rfl, ?_, ?_, fun a' b => rfl⟩
  · simp [FixedAllocator.allocate, hret, hsz, FixedAllocator.allocate_memory_]
  · simp [FixedAllocator.allocate, hret, hsz, FixedAllocator.allocate_memory_]
  · simp [FixedAllocator.allocate, hret, hsz, FixedAllocator.allocate_memory_]
  · intro cs' a'
    unfold FixedAllocator.allocate
    cases hr : a'.returned_ with
    | cons m rest => simp [hr]
    | nil =>
      by_cases hs : a'.size_ = a'.capacity_
      · simp [hr, hs, FixedAllocator.allocate_memory_]
      · simp [hr, hs]

/-- Witness for C4 at a pool that has exhausted its first region: one more
acquire appends a region of capacity 64. -/
theorem pool_growth_witness :
    (FixedAllocator.allocate 8 ⟨32, 32, [32], []⟩).2.chunks_ = [32, 64] := by
  have h := (pool_growth 8 ⟨32, 32, [32], []⟩ rfl rfl rfl).2.2.1
  simpa using h

/-- Claim C1 (code evaluated at the failing input): on the list `[1]`,
`insert(begin(), 7)` links 7 immediately before position (the list becomes
`[7, 1]`), but the returned iterator is `end()` — the node after the
position — whose storage holds no element; the new element lives at the
fresh address 3, which the returned iterator does not reference. -/
theorem insert_return_value_bug :
    ListState.toList ((ListState.listNew.push_back 1).insert
        (ListState.listNew.push_back 1).beginIt 7).2 = some [7, 1] ∧
    ((ListState.listNew.push_back 1).insert
        (ListState.listNew.push_back 1).beginIt 7).1 =
      (ListState.listNew.push_back 1).endIt ∧
    (((ListState.listNew.push_back 1).insert
        (ListState.listNew.push_back 1).beginIt 7).2.derefPtr
      ((ListState.listNew.push_back 1).insert
        (ListState.listNew.push_back 1).beginIt 7).1).bind LNode.elem_ = none ∧
    ListState.beginIt ((ListState.listNew.push_back 1).insert
        (ListState.listNew.push_back 1).beginIt 7).2 = some 3 ∧
    ((ListState.listNew.push_back 1).insert
        (ListState.listNew.push_back 1).beginIt 7).1 ≠ some 3 := by
  decide

/-- Claim C8: for the list built by `push_back(1); push_back(2);
push_back(3)`, forward traversal from `begin()` to `end()` yields 1,2,3;
reverse traversal from `rbegin()` to `rend()` yields 3,2,1; and after
`erase(begin())` the list has size 2 and forward traversal yields 2,3. -/
theorem traversal_example :
    ListState.toList (((ListState.listNew.push_back 1).push_back 2).push_back 3)
      = some [1, 2, 3] ∧
    ListState.toListRev (((ListState.listNew.push_back 1).push_back 2).push_back 3)
      = some [3, 2, 1] ∧
    ((((ListState.listNew.push_back 1).push_back 2).push_back 3).erase
      (((ListState.listNew.push_back 1).push_back 2).push_back 3).beginIt).2.size_ = 2 ∧
    ListState.toList ((((ListState.listNew.push_back 1).push_back 2).push_back 3).erase
      (((ListState.listNew.push_back 1).push_back 2).push_back 3).beginIt).2
      = some [2, 3] := by
  decide


namespace FixedAllocator

/-- Anything left after removing one block was in the original ghost list. -/
theorem removeFirst_subset (l : List Block) (b : Block) :
    ∀ x ∈ removeFirst l b, x ∈ l := by
  induction l with
  | nil => intro x hx; cases hx
  | cons y ys ih =>
    intro x hx
    by_cases hy : y = b
    · simp only [removeFirst, if_pos hy] at hx
      exact List.mem_cons_of_mem _ hx
    · simp only [removeFirst, if_neg hy] at hx
      rcases List.mem_cons.1 hx with h | h
      · exact h ▸ List.mem_cons_self _ _
      · exact List.mem_cons_of_mem _ (ih x h)

/-- Removing a present block is a permutation with that block set aside. -/
theorem perm_cons_removeFirst {l : List Block} {b : Block} (h : b ∈ l) :
    l.Perm (b :: removeFirst l b) := by
  induction l with
  | nil => cases h
  | cons y ys ih =>
    by_cases hy : y = b
    · subst hy
      have hrm : removeFirst (y :: ys) y = ys := by simp [removeFirst]
      rw [hrm]
    · have hmem : b ∈ ys := by
        rcases List.mem_cons.1 h with h' | h'
        · exact absurd h'.symm hy
        · exact h'
      simp only [removeFirst, if_neg hy]
      exact ((ih hmem).cons y).trans (List.Perm.swap b y _)

/-- The pool invariant holds initially. -/
theorem inv_init (chunkSize : Nat) : Inv chunkSize (init, []) := by
  refine ⟨by decide, rfl, by decide, List.nodup_nil, ?_⟩
  intro b hb
  simp [init] at hb

/-- One well-formed step preserves the pool invariant. -/
theorem inv_stepG (chunkSize : Nat) (hcs : 0 < chunkSize)
    (st : FixedAllocator × List Block) (op : FOp)
    (hinv : Inv chunkSize st)
    (hop : ∀ b, op = .rel b → b ∈ st.2) :
    Inv chunkSize (stepG chunkSize st op) := by
  obtain ⟨hcap, hlast, hsz, hnd, hmem⟩ := hinv
  cases op with
  | rel b =>
    have hb : b ∈ st.2 := hop b rfl
    refine ⟨hcap, hlast, hsz, ?_, ?_⟩
    · have h1 : (removeFirst st.2 b ++ b :: st.1.returned_).Perm
          ((b :: removeFirst st.2 b) ++ st.1.returned_) := List.perm_middle
      have h2 : ((b :: removeFirst st.2 b) ++ st.1.returned_).Perm
          (st.2 ++ st.1.returned_) :=
        List.Perm.append_right _ (perm_cons_removeFirst hb).symm
      exact ((h1.trans h2).symm).nodup hnd
    · intro b' hb'
      refine hmem b' ?_
      rcases List.mem_append.1 hb' with h | h
      · exact List.mem_append.2 (Or.inl (removeFirst_subset _ _ _ h))
      · rcases List.mem_cons.1 h with h' | h'
        · exact List.mem_append.2 (Or.inl (h' ▸ hb))
        · exact List.mem_append.2 (Or.inr h')
  | acq =>
    cases hr : st.1.returned_ with
    | cons m rest =>
      have hG : stepG chunkSize st .acq = ({ st.1 with returned_ := rest }, m :: st.2) := by
        simp only [stepG, allocate, hr]
      rw [hG]
      have hnd' : (st.2 ++ m :: rest).Nodup := by rw [hr] at hnd; exact hnd
      refine ⟨hcap, hlast, hsz, ?_, ?_⟩
      · exact List.perm_middle.nodup hnd'
      · intro b' hb'
        have hb'' : b' ∈ st.2 ++ m :: rest := List.perm_middle.symm.subset hb'
        exact hmem b' (by rw [hr]; exact hb'')
    | nil =>
      have hnd2 : st.2.Nodup := by
        rw [hr] at hnd
        simpa using hnd
      have hmem2 : ∀ b ∈ st.2,
          ∃ c j, st.1.chunks_[b.1]? = some c ∧ b.2 = j * chunkSize ∧ j < c ∧
            (b.1 = st.1.chunks_.length - 1 → j < st.1.size_) := by
        intro b hb
        exact hmem b (List.mem_append.2 (Or.inl hb))
      by_cases hs : st.1.size_ = st.1.capacity_
      · -- region exhausted: a region of double capacity is appended
        have hG : stepG chunkSize st .acq =
            ({ capacity_ := 2 * st.1.capacity_, size_ := 1,
               chunks_ := st.1.chunks_ ++ [2 * st.1.capacity_], returned_ := [] },
              (st.1.chunks_.length, 0) :: st.2) := by
          simp [stepG, allocate, hr, hs, allocate_memory_]
        rw [hG]
        unfold Inv
        dsimp only
        refine ⟨by omega, List.getLast?_concat _, by omega, ?_, ?_⟩
        · rw [List.append_nil]
          refine List.nodup_cons.2 ⟨?_, hnd2⟩
          intro hin
          obtain ⟨c, j, hc, -, -, -⟩ := hmem2 _ hin
          have hlt := (List.getElem?_eq_some.1 hc).1
          simp at hlt
        · intro b' hb'
          rw [List.append_nil] at hb'
          rcases List.mem_cons.1 hb' with h | h
          · subst h
            refine ⟨2 * st.1.capacity_, 0, ?_, by simp, by omega, fun _ => by omega⟩
            simpa using List.getElem?_concat_length st.1.chunks_ (2 * st.1.capacity_)
          · obtain ⟨c, j, hc, hoff, hjc, -⟩ := hmem2 _ h
            have hlt : b'.1 < st.1.chunks_.length := (List.getElem?_eq_some.1 hc).1
            refine ⟨c, j, ?_, hoff, hjc, ?_⟩
            · rw [List.getElem?_append_left hlt]
              exact hc
            · intro habs
              exfalso
              simp [List.length_append] at habs
              omega
      · -- room in the current region: next never-issued block is handed out
        have hslt : st.1.size_ < st.1.capacity_ := lt_of_le_of_ne hsz hs
        have hG : stepG chunkSize st .acq =
            ({ capacity_ := st.1.capacity_, size_ := st.1.size_ + 1,
               chunks_ := st.1.chunks_, returned_ := [] },
              (st.1.chunks_.length - 1, st.1.size_ * chunkSize) :: st.2) := by
          simp [stepG, allocate, hr, hs]
        rw [hG]
        unfold Inv
        dsimp only
        refine ⟨hcap, hlast, by omega, ?_, ?_⟩
        · rw [List.append_nil]
          refine List.nodup_cons.2 ⟨?_, hnd2⟩
          intro hin
          obtain ⟨c, j, hc, hoff, hjc, hjl⟩ := hmem2 _ hin
          have hj : j < st.1.size_ := hjl rfl
          have hoff' : st.1.size_ * chunkSize = j * chunkSize := hoff
          have := Nat.eq_of_mul_eq_mul_right hcs hoff'
          omega
        · intro b' hb'
          rw [List.append_nil] at hb'
          rcases List.mem_cons.1 hb' with h | h
          · subst h
            refine ⟨st.1.capacity_, st.1.size_, ?_, rfl, hslt, fun _ => by omega⟩
            show st.1.chunks_[st.1.chunks_.length - 1]? = some st.1.capacity_
            rw [← List.getLast?_eq_getElem?]
            exact hlast
          · obtain ⟨c, j, hc, hoff, hjc, hjl⟩ := hmem2 _ h
            exact ⟨c, j, hc, hoff, hjc, fun hl => by have := hjl hl; omega⟩

/-- A well-formed run from an invariant state preserves the invariant. -/
theorem inv_runG (chunkSize : Nat) (hcs : 0 < chunkSize) :
    ∀ (ops : List FOp) (st : FixedAllocator × List Block),
      Inv chunkSize st → wfOps chunkSize st ops = true →
      Inv chunkSize (runG chunkSize st ops)
  | [], _, hinv, _ => hinv
  | .acq :: ops, st, hinv, hwf => by
    have hstep := inv_stepG chunkSize hcs st .acq hinv (by intro b h; cases h)
    exact inv_runG chunkSize hcs ops _ hstep hwf
  | .rel b :: ops, st, hinv, hwf => by
    simp only [wfOps, Bool.and_eq_true] at hwf
    obtain ⟨h1, h2⟩ := hwf
    have hb : b ∈ st.2 := by simpa using h1
    have hstep := inv_stepG chunkSize hcs st (.rel b) hinv
      (by intro b' h; cases h; exact hb)
    exact inv_runG chunkSize hcs ops _ hstep h2

end FixedAllocator

/-- Claim C3: for every sequence of acquire/release calls on a pool of fixed
block size in which release is only ever passed currently-outstanding
addresses previously issued by that pool, every address returned by
`acquire` is distinct from every other currently-outstanding address, and
each outstanding address sits at an offset that is a multiple of the block
size, strictly inside its owning region. -/
theorem pool_outstanding_distinct_aligned (chunkSize : Nat)
    (ops : List FixedAllocator.FOp) (hcs : 0 < chunkSize)
    (hwf : FixedAllocator.wfOps chunkSize (FixedAllocator.init, []) ops = true) :
    (FixedAllocator.runG chunkSize (FixedAllocator.init, []) ops).2.Nodup ∧
    ∀ b ∈ (FixedAllocator.runG chunkSize (FixedAllocator.init, []) ops).2,
      ∃ c j,
        (FixedAllocator.runG chunkSize (FixedAllocator.init, []) ops).1.chunks_[b.1]?
          = some c ∧ b.2 = j * chunkSize ∧ j < c := by
  have hinv := FixedAllocator.inv_runG chunkSize hcs ops _
    (FixedAllocator.inv_init chunkSize) hwf
  obtain ⟨-, -, -, hnd, hmem⟩ := hinv
  refine ⟨hnd.of_append_left, ?_⟩
  intro b hb
  obtain ⟨c, j, hc, hoff, hjc, -⟩ := hmem b (List.mem_append.2 (Or.inl hb))
  exact ⟨c, j, hc, hoff, hjc⟩

/-- Witness for C3: block size 8, history acquire, release of the first
block, acquire again — a well-formed sequence whose one outstanding block is
distinct and aligned. -/
theorem pool_outstanding_distinct_aligned_witness :
    (FixedAllocator.runG 8 (FixedAllocator.init, [])
        [.acq, .rel (0, 0), .acq]).2.Nodup ∧
    ∀ b ∈ (FixedAllocator.runG 8 (FixedAllocator.init, [])
        [.acq, .rel (0, 0), .acq]).2,
      ∃ c j,
        (FixedAllocator.runG 8 (FixedAllocator.init, [])
            [.acq, .rel (0, 0), .acq]).1.chunks_[b.1]? = some c ∧
        b.2 = j * 8 ∧ j < c :=
  pool_outstanding_distinct_aligned 8 [.acq, .rel (0, 0), .acq]
    (by decide) (by decide)

/-! ### Chain infrastructure for the list representation -/

namespace ListState

variable {T : Type}

theorem hupd_ne (h : Nat → Option (LNode T)) (a : Nat) (f : LNode T → LNode T)
    {x : Nat} (hx : x ≠ a) : hupd h a f x = h x := by
  simp [hupd, hx]

theorem hupd_eq (h : Nat → Option (LNode T)) (a : Nat) (f : LNode T → LNode T) :
    hupd h a f a = (h a).map f := by
  simp [hupd]

end ListState

theorem headPtrD_append {T : Type} (xs ys : List (Nat × Option T)) (nx : Ptr) :
    headPtrD (xs ++ ys) nx = headPtrD xs (headPtrD ys nx) := by
  cases xs with
  | nil => rfl
  | cons p xs => cases p; rfl

theorem chain_append {T : Type} (h : Nat → Option (LNode T)) :
    ∀ (xs ys : List (Nat × Option T)) (pl nx : Ptr),
      chain h pl (xs ++ ys) nx ↔
        chain h pl xs (headPtrD ys nx) ∧ chain h (lastPtrD xs pl) ys nx
  | [], ys, pl, nx => by simp [chain, lastPtrD]
  | (a, x) :: xs, ys, pl, nx => by
    have ih := chain_append h xs ys (some a) nx
    have hh := headPtrD_append xs ys nx
    constructor
    · rintro ⟨h1, h2⟩
      have h3 := ih.mp h2
      exact ⟨⟨hh ▸ h1, h3.1⟩, h3.2⟩
    · rintro ⟨⟨h1, h2⟩, h3⟩
      exact ⟨hh.symm ▸ h1, ih.mpr ⟨h2, h3⟩⟩

theorem chain_congr {T : Type} {h h' : Nat → Option (LNode T)} :
    ∀ {xs : List (Nat × Option T)} {pl nx : Ptr},
      (∀ p ∈ xs.map Prod.fst, h' p = h p) →
      chain h pl xs nx → chain h' pl xs nx
  | [], _, _, _, _ => trivial
  | (a, x) :: xs, pl, nx, hagree, hch => by
    obtain ⟨h1, h2⟩ := hch
    refine ⟨?_, ?_⟩
    · rw [hagree a (by simp)]
      exact h1
    · exact chain_congr (fun p hp => hagree p (by simp [hp])) h2

theorem headPtrD_zip_sentinel {T : Type} (as : List Nat) (vs : List T) (e : Nat)
    (hlen : as.length = vs.length) (nx : Ptr) :
    headPtrD (as.zip (vs.map some) ++ [(e, (none : Option T))]) nx
      = as.head?.or (some e) := by
  cases as with
  | nil => rfl
  | cons a as' =>
    cases vs with
    | nil => simp at hlen
    | cons v vs' => rfl

theorem lastPtrD_concat {T : Type} :
    ∀ (xs : List (Nat × Option T)) (a : Nat) (x : Option T) (pl : Ptr),
      lastPtrD (xs ++ [(a, x)]) pl = some a
  | [], a, x, pl => rfl
  | (b, y) :: xs, a, x, pl => lastPtrD_concat xs a x (some b)

theorem map_fst_zip_sentinel {T : Type} (as : List Nat) (vs : List T) (e : Nat)
    (hlen : as.length = vs.length) :
    (as.zip (vs.map some) ++ [(e, (none : Option T))]).map Prod.fst = as ++ [e] := by
  rw [List.map_append, List.map_fst_zip]
  · rfl
  · simp [hlen]

theorem nodeList_split {T : Type} (b e : Nat) (as₁ as₂ : List Nat)
    (vs₁ vs₂ : List T) (hlen : as₁.length = vs₁.length) :
    nodeList b e (as₁ ++ as₂) (vs₁ ++ vs₂)
      = ((b, none) :: as₁.zip (vs₁.map some))
        ++ (as₂.zip (vs₂.map some) ++ [(e, none)]) := by
  unfold nodeList
  rw [List.map_append, List.zip_append (by simp [hlen])]
  simp [List.append_assoc]

theorem lastPtrD_mem {T : Type} :
    ∀ (xs : List (Nat × Option T)) (pl : Ptr),
      lastPtrD xs pl = pl ∨ ∃ pv ∈ xs.map Prod.fst, lastPtrD xs pl = some pv
  | [], _ => Or.inl rfl
  | (a, x) :: xs, pl => by
    rcases lastPtrD_mem xs (some a) with h | ⟨pv, hpv, h⟩
    · right
      exact ⟨a, by simp, by simp [lastPtrD, h]⟩
    · right
      exact ⟨pv, by simp [hpv], by simp [lastPtrD, h]⟩

/-- `insert_before_` at the node that starts `as₂` (or at the end sentinel
when `as₂` is empty) links the fresh node into the chain exactly between the
two segments.  This is the heart of the list verification: the pointer
surgery of lines 386-402 preserves the doubly-linked representation. -/
theorem insert_before_rep {T : Type} (v : T) {s : ListState T}
    {as₁ as₂ : List Nat} {vs₁ vs₂ : List T}
    (hrep : ListRep s (as₁ ++ as₂) (vs₁ ++ vs₂))
    (hlen : as₁.length = vs₁.length) :
    ListRep (s.insert_before_ (as₂.head?.or s.end_) v)
      (as₁ ++ s.fresh :: as₂) (vs₁ ++ v :: vs₂) := by
  obtain ⟨b, e, hb, he, hlen0, hch, hnd, hfr, hsz⟩ := hrep
  have hlen2 : as₂.length = vs₂.length := by
    simp only [List.length_append] at hlen0
    omega
  set z₁ := as₁.zip (vs₁.map some) with hz₁
  set z₂ := as₂.zip (vs₂.map some) with hz₂
  rw [nodeList_split b e as₁ as₂ vs₁ vs₂ hlen] at hch
  obtain ⟨tgt, xt, suf, hsuf⟩ :
      ∃ tgt xt suf, z₂ ++ [(e, (none : Option T))] = (tgt, xt) :: suf := by
    cases hzz : z₂ ++ [(e, (none : Option T))] with
    | nil => exact absurd hzz (by simp)
    | cons hd tl =>
      obtain ⟨t1, t2⟩ := hd
      exact ⟨t1, t2, tl, rfl⟩
  have hhead : headPtrD (z₂ ++ [(e, (none : Option T))]) none = some tgt := by
    rw [hsuf]
    rfl
  have htgtp : as₂.head?.or s.end_ = some tgt := by
    have h1 := headPtrD_zip_sentinel as₂ vs₂ e hlen2 none
    rw [hhead] at h1
    rw [he]
    exact h1.symm
  rw [chain_append] at hch
  obtain ⟨hchA, hchB⟩ := hch
  rw [hhead] at hchA
  obtain ⟨ys, pv, xp, hpre⟩ :
      ∃ ys pv xp, (b, (none : Option T)) :: z₁ = ys ++ [(pv, xp)] := by
    rcases List.eq_nil_or_concat ((b, (none : Option T)) :: z₁) with h | ⟨L, c, hc⟩
    · exact absurd h (by simp)
    · exact ⟨L, c.1, c.2, by rw [hc]; simp [List.concat_eq_append]⟩
  have hpv : lastPtrD ((b, (none : Option T)) :: z₁) none = some pv := by
    rw [hpre]
    exact lastPtrD_concat ys pv xp none
  rw [hpv, hsuf] at hchB
  obtain ⟨hnode, hchC⟩ := hchB
  have hmapPre : b :: as₁ = ys.map Prod.fst ++ [pv] := by
    have hmp : ((b, (none : Option T)) :: z₁).map Prod.fst = b :: as₁ := by
      simp [hz₁, List.map_fst_zip as₁ (vs₁.map some) (by simp [hlen])]
    rw [hpre] at hmp
    simpa using hmp.symm
  have hmapSuf : as₂ ++ [e] = tgt :: suf.map Prod.fst := by
    have h2 := map_fst_zip_sentinel as₂ vs₂ e hlen2
    rw [hsuf] at h2
    simpa using h2.symm
  have hndL : ((b :: as₁) ++ (as₂ ++ [e])).Nodup := by
    simpa [List.append_assoc] using hnd
  have hfr' : ∀ a ∈ (b :: as₁) ++ (as₂ ++ [e]), a < s.fresh := by
    intro a ha
    apply hfr
    simpa [List.append_assoc] using ha
  have hdisj := List.disjoint_of_nodup_append hndL
  have hpv_mem : pv ∈ b :: as₁ := by rw [hmapPre]; simp
  have htgt_mem : tgt ∈ as₂ ++ [e] := by rw [hmapSuf]; simp
  have hpv_lt : pv < s.fresh := hfr' pv (List.mem_append.2 (Or.inl hpv_mem))
  have htgt_lt : tgt < s.fresh := hfr' tgt (List.mem_append.2 (Or.inr htgt_mem))
  have hpv_ne_tgt : pv ≠ tgt := by
    intro hq
    exact hdisj hpv_mem (hq ▸ htgt_mem)
  have hf_ne_tgt : s.fresh ≠ tgt := by omega
  have hf_ne_pv : s.fresh ≠ pv := by omega
  have hpv_ne_f : pv ≠ s.fresh := by omega
  have htgt_ne_f : tgt ≠ s.fresh := by omega
  have htgt_ne_pv : tgt ≠ pv := fun hq => hpv_ne_tgt hq.symm
  have hstate : s.insert_before_ (some tgt) v =
      { heap := ListState.hupd (ListState.hupd
            (fun x => if x = s.fresh then some ⟨some v, some tgt, some pv⟩
              else s.heap x)
            pv (fun m => { m with next := some s.fresh }))
          tgt (fun m => { m with prev := some s.fresh })
        fresh := s.fresh + 1
        size_ := s.size_ + 1
        begin_ := s.begin_
        end_ := s.end_ } := by
    simp only [ListState.insert_before_, hnode]
  rw [htgtp, hstate]
  set H : Nat → Option (LNode T) := ListState.hupd (ListState.hupd
      (fun x => if x = s.fresh then some ⟨some v, some tgt, some pv⟩
        else s.heap x)
      pv (fun m => { m with next := some s.fresh }))
    tgt (fun m => { m with prev := some s.fresh }) with hHdef
  have Hnew : H s.fresh = some ⟨some v, some tgt, some pv⟩ := by
    simp [hHdef, ListState.hupd, hf_ne_tgt, hf_ne_pv]
  have Hpv : H pv = (s.heap pv).map (fun m => { m with next := some s.fresh }) := by
    simp [hHdef, ListState.hupd, hpv_ne_tgt, hpv_ne_f]
  have Htgt : H tgt = some ⟨xt, headPtrD suf none, some s.fresh⟩ := by
    simp [hHdef, ListState.hupd, htgt_ne_pv, htgt_ne_f, hnode]
  have Hother : ∀ x, x ≠ s.fresh → x ≠ pv → x ≠ tgt → H x = s.heap x := by
    intro x h1 h2 h3
    simp [hHdef, ListState.hupd, h1, h2, h3]
  refine ⟨b, e, hb, he, by simp [hlen, hlen2], ?_, ?_, ?_, ?_⟩
  · -- the new chain
    rw [nodeList_split b e as₁ (s.fresh :: as₂) vs₁ (v :: vs₂) hlen]
    show chain H none (((b, none) :: z₁)
      ++ ((s.fresh, some v) :: (z₂ ++ [(e, (none : Option T))]))) none
    rw [chain_append]
    simp only [headPtrD]
    constructor
    · -- prefix, retargeted at its last node
      rw [hpre] at hchA ⊢
      rw [chain_append] at hchA ⊢
      obtain ⟨hys, hlastseg⟩ := hchA
      constructor
      · -- untouched initial segment
        refine chain_congr ?_ hys
        intro p hp
        have hpmem : p ∈ b :: as₁ := by
          rw [hmapPre]
          exact List.mem_append.2 (Or.inl hp)
        have hplt : p < s.fresh := hfr' p (List.mem_append.2 (Or.inl hpmem))
        have hp_ne_pv : p ≠ pv := by
          have hnd1 : (ys.map Prod.fst ++ [pv]).Nodup := by
            rw [← hmapPre]
            exact hndL.of_append_left
          intro hq
          have := List.disjoint_of_nodup_append hnd1 hp (by simp [hq])
          exact this
        have hp_ne_tgt : p ≠ tgt := fun hq => hdisj hpmem (hq ▸ htgt_mem)
        exact Hother p (by omega) hp_ne_pv hp_ne_tgt
      · -- the last prefix node now points at the fresh node
        obtain ⟨hpvnode, -⟩ := hlastseg
        refine ⟨?_, trivial⟩
        rw [Hpv, hpvnode]
        rfl
    · -- fresh node followed by the old suffix
      rw [hpv]
      refine ⟨?_, ?_⟩
      · rw [Hnew, hhead]
      · rw [hsuf]
        refine ⟨Htgt, ?_⟩
        refine chain_congr ?_ hchC
        intro p hp
        have hpmem : p ∈ as₂ ++ [e] := by
          rw [hmapSuf]
          exact List.mem_cons_of_mem _ hp
        have hplt : p < s.fresh := hfr' p (List.mem_append.2 (Or.inr hpmem))
        have hp_ne_tgt : p ≠ tgt := by
          have hnd2 : (tgt :: suf.map Prod.fst).Nodup := by
            rw [← hmapSuf]
            exact hndL.of_append_right
          intro hq
          exact (List.nodup_cons.1 hnd2).1 (hq ▸ hp)
        have hp_ne_pv : p ≠ pv := fun hq => hdisj (hq ▸ hpv_mem) hpmem
        exact Hother p (by omega) hp_ne_pv hp_ne_tgt
  · -- distinct addresses
    have hre : b :: (as₁ ++ s.fresh :: as₂) ++ [e]
        = (b :: as₁) ++ s.fresh :: (as₂ ++ [e]) := by
      simp [List.append_assoc]
    rw [hre, List.nodup_middle]
    refine List.nodup_cons.2 ⟨?_, hndL⟩
    intro hmem'
    have := hfr' _ hmem'
    omega
  · -- all addresses below the new fresh counter
    show ∀ a ∈ b :: (as₁ ++ s.fresh :: as₂) ++ [e], a < s.fresh + 1
    intro a ha
    have ha' : a = s.fresh ∨ a ∈ (b :: as₁) ++ (as₂ ++ [e]) := by
      simp only [List.mem_append, List.mem_cons] at ha ⊢
      tauto
    rcases ha' with rfl | h
    · omega
    · have := hfr' a h
      omega
  · -- size bookkeeping
    show s.size_ + 1 = (as₁ ++ s.fresh :: as₂).length
    simp only [List.length_append, List.length_cons] at hsz ⊢
    omega

/-- `erase_` at a live node unlinks exactly that node: the pointer surgery
of lines 366-384 removes the node from the doubly-linked representation. -/
theorem erase_rep {T : Type} {s : ListState T} {as₁ as₂ : List Nat} {a : Nat}
    {vs₁ vs₂ : List T} {v : T}
    (hrep : ListRep s (as₁ ++ a :: as₂) (vs₁ ++ v :: vs₂))
    (hlen : as₁.length = vs₁.length) :
    ListRep (s.erase_ (some a)) (as₁ ++ as₂) (vs₁ ++ vs₂) := by
  obtain ⟨b, e, hb, he, hlen0, hch, hnd, hfr, hsz⟩ := hrep
  have hlen2 : as₂.length = vs₂.length := by
    simp only [List.length_append, List.length_cons] at hlen0
    omega
  set z₁ := as₁.zip (vs₁.map some) with hz₁
  set z₂ := as₂.zip (vs₂.map some) with hz₂
  rw [nodeList_split b e as₁ (a :: as₂) vs₁ (v :: vs₂) hlen] at hch
  have hch' : chain s.heap none (((b, none) :: z₁)
      ++ ((a, some v) :: (z₂ ++ [(e, (none : Option T))]))) none := hch
  rw [chain_append] at hch'
  obtain ⟨hchA, hchB⟩ := hch'
  simp only [headPtrD] at hchA
  obtain ⟨nx, xn, suf, hsuf⟩ :
      ∃ nx xn suf, z₂ ++ [(e, (none : Option T))] = (nx, xn) :: suf := by
    cases hzz : z₂ ++ [(e, (none : Option T))] with
    | nil => exact absurd hzz (by simp)
    | cons hd tl =>
      obtain ⟨t1, t2⟩ := hd
      exact ⟨t1, t2, tl, rfl⟩
  have hheadnx : headPtrD (z₂ ++ [(e, (none : Option T))]) none = some nx := by
    rw [hsuf]
    rfl
  obtain ⟨ys, pv, xp, hpre⟩ :
      ∃ ys pv xp, (b, (none : Option T)) :: z₁ = ys ++ [(pv, xp)] := by
    rcases List.eq_nil_or_concat ((b, (none : Option T)) :: z₁) with h | ⟨L, c, hc⟩
    · exact absurd h (by simp)
    · exact ⟨L, c.1, c.2, by rw [hc]; simp [List.concat_eq_append]⟩
  have hpv : lastPtrD ((b, (none : Option T)) :: z₁) none = some pv := by
    rw [hpre]
    exact lastPtrD_concat ys pv xp none
  rw [hpv] at hchB
  obtain ⟨hnodeA, hchC⟩ := hchB
  rw [hheadnx] at hnodeA
  rw [hsuf] at hchC
  obtain ⟨hnodeNx, hchD⟩ := hchC
  have hmapPre : b :: as₁ = ys.map Prod.fst ++ [pv] := by
    have hmp : ((b, (none : Option T)) :: z₁).map Prod.fst = b :: as₁ := by
      simp [hz₁, List.map_fst_zip as₁ (vs₁.map some) (by simp [hlen])]
    rw [hpre] at hmp
    simpa using hmp.symm
  have hmapSuf : as₂ ++ [e] = nx :: suf.map Prod.fst := by
    have h2 := map_fst_zip_sentinel as₂ vs₂ e hlen2
    rw [hsuf] at h2
    simpa using h2.symm
  have hndM : ((b :: as₁) ++ a :: (as₂ ++ [e])).Nodup := by
    simpa [List.append_assoc] using hnd
  have hfrM : ∀ x ∈ (b :: as₁) ++ a :: (as₂ ++ [e]), x < s.fresh := by
    intro x hx
    apply hfr
    simpa [List.append_assoc] using hx
  have hndL : ((b :: as₁) ++ (as₂ ++ [e])).Nodup :=
    (List.nodup_middle.1 hndM).of_cons
  have ha_nm : a ∉ (b :: as₁) ++ (as₂ ++ [e]) :=
    (List.nodup_cons.1 (List.nodup_middle.1 hndM)).1
  have hdisj := List.disjoint_of_nodup_append hndL
  have hpv_mem : pv ∈ b :: as₁ := by rw [hmapPre]; simp
  have hnx_mem : nx ∈ as₂ ++ [e] := by rw [hmapSuf]; simp
  have hpv_ne_nx : pv ≠ nx := by
    intro hq
    exact hdisj hpv_mem (hq ▸ hnx_mem)
  have ha_ne_pv : a ≠ pv := by
    intro hq
    exact ha_nm (List.mem_append.2 (Or.inl (hq ▸ hpv_mem)))
  have ha_ne_nx : a ≠ nx := by
    intro hq
    exact ha_nm (List.mem_append.2 (Or.inr (hq ▸ hnx_mem)))
  have hstate : s.erase_ (some a) =
      { heap := fun x => if x = a then none else
          (ListState.hupd (ListState.hupd s.heap nx
              (fun m => { m with prev := some pv }))
            pv (fun m => { m with next := some nx })) x
        fresh := s.fresh
        size_ := s.size_ - 1
        begin_ := s.begin_
        end_ := s.end_ } := by
    simp only [ListState.erase_, hnodeA]
  rw [hstate]
  set H : Nat → Option (LNode T) := fun x => if x = a then none else
      (ListState.hupd (ListState.hupd s.heap nx
          (fun m => { m with prev := some pv }))
        pv (fun m => { m with next := some nx })) x with hHdef
  have Hpv : H pv = (s.heap pv).map (fun m => { m with next := some nx }) := by
    simp [hHdef, ListState.hupd, ha_ne_pv.symm, hpv_ne_nx]
  have Hnx : H nx = (s.heap nx).map (fun m => { m with prev := some pv }) := by
    simp [hHdef, ListState.hupd, ha_ne_nx.symm, hpv_ne_nx.symm]
  have Hother : ∀ x, x ≠ a → x ≠ pv → x ≠ nx → H x = s.heap x := by
    intro x h1 h2 h3
    simp [hHdef, ListState.hupd, h1, h2, h3]
  refine ⟨b, e, hb, he, by simp [hlen, hlen2], ?_, ?_, ?_, ?_⟩
  · -- the chain with the node removed
    rw [nodeList_split b e as₁ as₂ vs₁ vs₂ hlen]
    show chain H none (((b, none) :: z₁) ++ (z₂ ++ [(e, (none : Option T))])) none
    rw [chain_append]
    rw [hheadnx, hpv]
    constructor
    · -- prefix: its last node now skips the erased node
      rw [hpre] at hchA ⊢
      rw [chain_append] at hchA ⊢
      obtain ⟨hys, hlastseg⟩ := hchA
      constructor
      · refine chain_congr ?_ hys
        intro p hp
        have hpmem : p ∈ b :: as₁ := by
          rw [hmapPre]
          exact List.mem_append.2 (Or.inl hp)
        have hp_ne_pv : p ≠ pv := by
          have hnd1 : (ys.map Prod.fst ++ [pv]).Nodup := by
            rw [← hmapPre]
            exact hndL.of_append_left
          intro hq
          exact List.disjoint_of_nodup_append hnd1 hp (by simp [hq])
        have hp_ne_a : p ≠ a := by
          intro hq
          exact ha_nm (List.mem_append.2 (Or.inl (hq ▸ hpmem)))
        have hp_ne_nx : p ≠ nx := fun hq => hdisj hpmem (hq ▸ hnx_mem)
        exact Hother p hp_ne_a hp_ne_pv hp_ne_nx
      · obtain ⟨hpvnode, -⟩ := hlastseg
        refine ⟨?_, trivial⟩
        rw [Hpv, hpvnode]
        rfl
    · -- suffix: its first node's prev now skips the erased node
      rw [hsuf]
      refine ⟨?_, ?_⟩
      · rw [Hnx, hnodeNx]
        rfl
      · refine chain_congr ?_ hchD
        intro p hp
        have hpmem : p ∈ as₂ ++ [e] := by
          rw [hmapSuf]
          exact List.mem_cons_of_mem _ hp
        have hp_ne_nx : p ≠ nx := by
          have hnd2 : (nx :: suf.map Prod.fst).Nodup := by
            rw [← hmapSuf]
            exact hndL.of_append_right
          intro hq
          exact (List.nodup_cons.1 hnd2).1 (hq ▸ hp)
        have hp_ne_a : p ≠ a := by
          intro hq
          exact ha_nm (List.mem_append.2 (Or.inr (hq ▸ hpmem)))
        have hp_ne_pv : p ≠ pv := fun hq => hdisj (hq ▸ hpv_mem) hpmem
        exact Hother p hp_ne_a hp_ne_pv hp_ne_nx
  · -- distinctness
    show (b :: (as₁ ++ as₂) ++ [e]).Nodup
    simpa [List.append_assoc] using hndL
  · -- bounds
    show ∀ x ∈ b :: (as₁ ++ as₂) ++ [e], x < s.fresh
    intro x hx
    apply hfrM
    simp only [List.mem_append, List.mem_cons] at hx ⊢
    tauto
  · -- size bookkeeping
    show s.size_ - 1 = (as₁ ++ as₂).length
    simp only [List.length_append, List.length_cons] at hsz ⊢
    omega

/-- The lengths recorded by a list representation agree. -/
theorem ListRep.lengths {T : Type} {s : ListState T} {as : List Nat}
    {vs : List T} (hrep : ListRep s as vs) : as.length = vs.length := by
  obtain ⟨b, e, -, -, h, -⟩ := hrep
  exact h

/-- The empty list produced by the constructor is well-formed. -/
theorem listNew_rep {T : Type} : ListRep (ListState.listNew : ListState T) [] [] := by
  refine ⟨0, 1, rfl, rfl, rfl, ?_, ?_, ?_, rfl⟩
  · exact ⟨rfl, rfl, trivial⟩
  · simp
  · intro a ha
    have h2 : a = 0 ∨ a = 1 := by simpa using ha
    show a < 2
    omega

/-- `begin()` points at the first live node, or at the end sentinel when the
list is empty. -/
theorem beginIt_rep {T : Type} {s : ListState T} {as : List Nat} {vs : List T}
    (hrep : ListRep s as vs) : s.beginIt = as.head?.or s.end_ := by
  obtain ⟨b, e, hb, he, hlen0, hch, -, -, -⟩ := hrep
  unfold nodeList at hch
  obtain ⟨hbnode, -⟩ := hch
  rw [he]
  have h1 : s.beginIt = (s.heap b).bind LNode.next := by
    simp only [ListState.beginIt, ListState.derefPtr, hb]
    rfl
  rw [h1, hbnode]
  show headPtrD (as.zip (vs.map some) ++ [(e, (none : Option T))]) none
    = as.head?.or (some e)
  exact headPtrD_zip_sentinel as vs e hlen0 none

/-- `push_back` appends the fresh node at the back. -/
theorem push_back_rep {T : Type} {s : ListState T} {as : List Nat}
    {vs : List T} (hrep : ListRep s as vs) (v : T) :
    ListRep (s.push_back v) (as ++ [s.fresh]) (vs ++ [v]) := by
  have hrep' : ListRep s (as ++ []) (vs ++ []) := by simpa using hrep
  have h := insert_before_rep v hrep' hrep.lengths
  simpa using h

/-- `push_front` prepends the fresh node at the front. -/
theorem push_front_rep {T : Type} {s : ListState T} {as : List Nat}
    {vs : List T} (hrep : ListRep s as vs) (v : T) :
    ListRep (s.push_front v) (s.fresh :: as) (v :: vs) := by
  have hrep' : ListRep s ([] ++ as) ([] ++ vs) := by simpa using hrep
  have h := insert_before_rep v hrep' rfl
  have hb := beginIt_rep hrep
  have heq : s.push_front v = s.insert_before_ (as.head?.or s.end_) v := by
    show s.insert_before_ s.beginIt v = _
    rw [hb]
  rw [heq]
  simpa using h

/-- `pop_front` on a non-empty list erases exactly the first live node. -/
theorem pop_front_rep {T : Type} {s : ListState T} {a : Nat} {as : List Nat}
    {v : T} {vs : List T} (hrep : ListRep s (a :: as) (v :: vs)) :
    ListRep s.pop_front as vs := by
  have hsz : s.size_ = as.length + 1 := by
    obtain ⟨b, e, -, -, -, -, -, -, h⟩ := hrep
    simpa using h
  have hb := beginIt_rep hrep
  have heq : s.pop_front = s.erase_ (some a) := by
    unfold ListState.pop_front
    rw [if_pos (by omega)]
    show s.erase_ s.beginIt = _
    rw [hb]
    rfl
  rw [heq]
  have hrep' : ListRep s ([] ++ a :: as) ([] ++ v :: vs) := by simpa using hrep
  have h := erase_rep hrep' rfl
  simpa using h

/-- `pop_back` on a non-empty list erases exactly the last live node. -/
theorem pop_back_rep {T : Type} {s : ListState T} {as : List Nat} {a : Nat}
    {vs : List T} {v : T} (hrep : ListRep s (as ++ [a]) (vs ++ [v]))
    (hlen : as.length = vs.length) :
    ListRep s.pop_back as vs := by
  have hsz : s.size_ = as.length + 1 := by
    obtain ⟨b, e, -, -, -, -, -, -, h⟩ := hrep
    simpa using h
  have hprev : (s.derefPtr s.end_).bind LNode.prev = some a := by
    obtain ⟨b, e, hb, he, hlen0, hch, -, -, -⟩ := hrep
    rw [nodeList_split b e as [a] vs [v] hlen] at hch
    have hch' : chain s.heap none (((b, none) :: as.zip (vs.map some))
        ++ ((a, some v) :: [(e, (none : Option T))])) none := hch
    rw [chain_append] at hch'
    obtain ⟨-, hchB⟩ := hch'
    obtain ⟨-, hchE⟩ := hchB
    obtain ⟨henode, -⟩ := hchE
    rw [he]
    show (s.heap e).bind LNode.prev = some a
    rw [henode]
    rfl
  have heq : s.pop_back = s.erase_ (some a) := by
    unfold ListState.pop_back
    rw [if_pos (by omega), hprev]
    rfl
  rw [heq]
  have h := erase_rep hrep hlen
  simpa using h

/-- Forward traversal along a well-formed segment reads exactly its values,
in `length` steps, stopping at the end sentinel. -/
theorem toListAux_seg {T : Type} (s : ListState T) (e : Nat) (he : s.end_ = some e) :
    ∀ (as : List Nat) (vs : List T) (pl : Ptr),
      as.length = vs.length →
      chain s.heap pl (as.zip (vs.map some) ++ [(e, (none : Option T))]) none →
      (∀ x ∈ as, x ≠ e) →
      ListState.toListAux s as.length (as.head?.or (some e)) = some vs
  | [], [], _, _, _, _ => by
    simp [ListState.toListAux, he]
  | [], v :: vs', _, hlen, _, _ => by simp at hlen
  | a :: as', [], _, hlen, _, _ => by simp at hlen
  | a :: as', v :: vs', pl, hlen, hch, hne => by
    have hlen' : as'.length = vs'.length := by simpa using hlen
    obtain ⟨hnode, hch2⟩ := hch
    have ha_ne : some a ≠ s.end_ := by
      rw [he]
      simp only [ne_eq, Option.some.injEq]
      exact hne a (by simp)
    have hderef : s.derefPtr (some a)
        = some ⟨some v, headPtrD (as'.zip (vs'.map some)
            ++ [(e, (none : Option T))]) none, pl⟩ := by
      show s.heap a = _
      exact hnode
    show ListState.toListAux s (as'.length + 1) (some a) = some (v :: vs')
    rw [show ListState.toListAux s (as'.length + 1) (some a)
        = if some a = s.end_ then some [] else
            match s.derefPtr (some a) with
            | none => none
            | some nd =>
              match nd.elem_ with
              | none => none
              | some w => (ListState.toListAux s as'.length nd.next).map (w :: ·)
      from rfl]
    rw [if_neg ha_ne, hderef]
    simp only
    rw [headPtrD_zip_sentinel as' vs' e hlen' none]
    rw [toListAux_seg s e he as' vs' (some a) hlen' hch2
      (fun x hx => hne x (by simp [hx]))]
    rfl

/-- The observable contents of a well-formed list are its value sequence. -/
theorem toList_rep {T : Type} {s : ListState T} {as : List Nat} {vs : List T}
    (hrep : ListRep s as vs) : ListState.toList s = some vs := by
  obtain ⟨b, e, hb, he, hlen0, hch, hnd, hfr, hsz⟩ := hrep
  unfold nodeList at hch
  obtain ⟨hbnode, hch2⟩ := hch
  have hbIt : s.beginIt = as.head?.or (some e) := by
    have h1 : s.beginIt = (s.heap b).bind LNode.next := by
      simp only [ListState.beginIt, ListState.derefPtr, hb]
      rfl
    rw [h1, hbnode]
    show headPtrD (as.zip (vs.map some) ++ [(e, (none : Option T))]) none
      = as.head?.or (some e)
    exact headPtrD_zip_sentinel as vs e hlen0 none
  have hne : ∀ x ∈ as, x ≠ e := by
    intro x hx hq
    have hd := List.disjoint_of_nodup_append hnd
    exact hd (List.mem_cons_of_mem _ hx) (by simp [hq])
  show ListState.toListAux s s.size_ s.beginIt = some vs
  rw [hsz, hbIt]
  exact toListAux_seg s e he as vs (some b) hlen0 hch2 hne

/-- Claim C9: on an empty list `pop_front()` and `pop_back()` are no-ops
that leave the state entirely unchanged; on a non-empty list they remove
exactly the corresponding boundary element. -/
theorem pop_boundary (T : Type) (s : ListState T) (as : List Nat) (vs : List T)
    (hrep : ListRep s as vs) :
    (s.size_ = 0 → s.pop_front = s ∧ s.pop_back = s) ∧
    ListState.toList s.pop_front = some vs.tail ∧
    ListState.toList s.pop_back = some vs.dropLast ∧
    (∃ as', ListRep s.pop_front as' vs.tail) ∧
    (∃ as', ListRep s.pop_back as' vs.dropLast) := by
  have hlen := hrep.lengths
  have hsz : s.size_ = as.length := by
    obtain ⟨b, e, -, -, -, -, -, -, h⟩ := hrep
    exact h
  cases as with
  | nil =>
    have hvs : vs = [] := List.eq_nil_of_length_eq_zero hlen.symm
    subst hvs
    have hsz0 : s.size_ = 0 := by simpa using hsz
    have hpf : s.pop_front = s := by
      unfold ListState.pop_front
      rw [if_neg (by omega)]
    have hpb : s.pop_back = s := by
      unfold ListState.pop_back
      rw [if_neg (by omega)]
    refine ⟨fun _ => ⟨hpf, hpb⟩, ?_, ?_, ?_, ?_⟩
    · rw [hpf]
      simpa using toList_rep hrep
    · rw [hpb]
      simpa using toList_rep hrep
    · exact ⟨[], by rw [hpf]; simpa using hrep⟩
    · exact ⟨[], by rw [hpb]; simpa using hrep⟩
  | cons a as' =>
    cases vs with
    | nil => simp at hlen
    | cons v vs' =>
      have hfront := pop_front_rep hrep
      obtain ⟨L, c, hc⟩ : ∃ L c, a :: as' = L ++ [c] := by
        rcases List.eq_nil_or_concat (a :: as') with h | ⟨L, c, hc⟩
        · exact absurd h (by simp)
        · exact ⟨L, c, by rw [hc]; simp [List.concat_eq_append]⟩
      obtain ⟨M, w, hm⟩ : ∃ M w, v :: vs' = M ++ [w] := by
        rcases List.eq_nil_or_concat (v :: vs') with h | ⟨M, w, hm⟩
        · exact absurd h (by simp)
        · exact ⟨M, w, by rw [hm]; simp [List.concat_eq_append]⟩
      have hlen2 : L.length = M.length := by
        have h1 : (a :: as').length = (v :: vs').length := hlen
        rw [hc, hm] at h1
        simpa using h1
      have hrep2 : ListRep s (L ++ [c]) (M ++ [w]) := by
        rw [← hc, ← hm]
        exact hrep
      have hback := pop_back_rep hrep2 hlen2
      have hdrop : (v :: vs').dropLast = M := by
        rw [hm]
        simp
      refine ⟨fun h0 => absurd h0 (by simp [hsz]), ?_, ?_, ⟨as', hfront⟩, ?_⟩
      · exact toList_rep hfront
      · rw [show (v :: vs').dropLast = M from hdrop]
        exact toList_rep hback
      · rw [hdrop]
        exact ⟨L, hback⟩

/-- Witness for C9: both pops on the empty list leave it untouched. -/
theorem pop_boundary_witness :
    (ListState.listNew : ListState Nat).pop_front = ListState.listNew ∧
    (ListState.listNew : ListState Nat).pop_back = ListState.listNew :=
  (pop_boundary Nat ListState.listNew [] [] listNew_rep).1 rfl

/-- Pushing a sequence of values onto the back of a well-formed list appends
them, keeping the representation well-formed. -/
theorem foldl_push_back_rep {T : Type} :
    ∀ (ws : List T) {s : ListState T} {as : List Nat} {vs : List T},
      ListRep s as vs →
      ∃ as', ListRep (ws.foldl ListState.push_back s) as' (vs ++ ws)
  | [], s, as, vs, hrep => ⟨as, by simpa using hrep⟩
  | w :: ws, s, as, vs, hrep => by
    have h1 := push_back_rep hrep w
    obtain ⟨as', h2⟩ := foldl_push_back_rep ws h1
    refine ⟨as', ?_⟩
    have he : (vs ++ [w]) ++ ws = vs ++ w :: ws := by simp
    rw [← he]
    exact h2

/-- Claim C7: copy construction produces a list of the same size with
element-wise equal contents in the same order.  The copy's state is a value
built only from the source's element sequence, so later mutation or
destruction of the source cannot affect it. -/
theorem copy_roundtrip (T : Type) (rhs : ListState T) (as : List Nat)
    (vs : List T) (hrep : ListRep rhs as vs) :
    ListState.toList (ListState.listCopy rhs) = some vs ∧
    ListState.toList (ListState.listCopy rhs) = ListState.toList rhs ∧
    (ListState.listCopy rhs).size_ = rhs.size_ ∧
    (ListState.listCopy rhs).size_ = vs.length ∧
    ∃ as', ListRep (ListState.listCopy rhs) as' vs := by
  have htl := toList_rep hrep
  have hcopy : ListState.listCopy rhs
      = vs.foldl ListState.push_back ListState.listNew := by
    unfold ListState.listCopy ListState.copy_
    rw [htl]
  obtain ⟨as', h2⟩ := foldl_push_back_rep vs (listNew_rep (T := T))
  have h2' : ListRep (vs.foldl ListState.push_back ListState.listNew) as' vs := by
    simpa using h2
  have hsz1 : (vs.foldl ListState.push_back ListState.listNew).size_
      = as'.length := by
    obtain ⟨b, e, -, -, -, -, -, -, h⟩ := h2'
    exact h
  have hsz2 : rhs.size_ = as.length := by
    obtain ⟨b, e, -, -, -, -, -, -, h⟩ := hrep
    exact h
  have hl1 := h2'.lengths
  have hl2 := hrep.lengths
  rw [hcopy]
  refine ⟨toList_rep h2', ?_, by omega, by omega, ⟨as', h2'⟩⟩
  rw [toList_rep h2', htl]

/-- Witness for C7 on the one-element list `[5]`: the copy holds `[5]`. -/
theorem copy_roundtrip_witness :
    ListState.toList (ListState.listCopy (ListState.listNew.push_back 5))
      = some (([] : List Nat) ++ [5]) :=
  (copy_roundtrip Nat (ListState.listNew.push_back 5)
    ([] ++ [ListState.listNew.fresh]) ([] ++ [5])
    (push_back_rep (listNew_rep (T := Nat)) 5)).1

/-- Iterating `pop_back` once per live node empties the list. -/
theorem popN_rep {T : Type} :
    ∀ (n : Nat) (s : ListState T) (as : List Nat) (vs : List T),
      ListRep s as vs → as.length = n →
      ListRep (ListState.pop_back^[n] s) [] []
  | 0, s, as, vs, hrep, hn => by
    have has : as = [] := List.eq_nil_of_length_eq_zero hn
    subst has
    have hvs : vs = [] := List.eq_nil_of_length_eq_zero hrep.lengths.symm
    subst hvs
    simpa using hrep
  | n + 1, s, as, vs, hrep, hn => by
    have hlen := hrep.lengths
    obtain ⟨L, c, hc⟩ : ∃ L c, as = L ++ [c] := by
      rcases List.eq_nil_or_concat as with h | ⟨L, c, hc⟩
      · rw [h] at hn
        simp at hn
      · exact ⟨L, c, by rw [hc]; simp [List.concat_eq_append]⟩
    obtain ⟨M, w, hm⟩ : ∃ M w, vs = M ++ [w] := by
      rcases List.eq_nil_or_concat vs with h | ⟨M, w, hm⟩
      · rw [h] at hlen
        rw [hc] at hlen
        simp at hlen
      · exact ⟨M, w, by rw [hm]; simp [List.concat_eq_append]⟩
    have hlen2 : L.length = M.length := by
      rw [hc, hm] at hlen
      simpa using hlen
    have hrep2 : ListRep s (L ++ [c]) (M ++ [w]) := by
      rw [← hc, ← hm]
      exact hrep
    have hback := pop_back_rep hrep2 hlen2
    rw [Function.iterate_succ_apply]
    refine popN_rep n _ L M hback ?_
    rw [hc] at hn
    simpa using hn

/-- The clearing loop of `operator=` (and the destructor) empties the list. -/
theorem clearAll_rep {T : Type} {s : ListState T} {as : List Nat} {vs : List T}
    (hrep : ListRep s as vs) : ListRep s.clearAll [] [] := by
  have hsz : s.size_ = as.length := by
    obtain ⟨b, e, -, -, -, -, -, -, h⟩ := hrep
    exact h
  unfold ListState.clearAll
  rw [hsz]
  exact popN_rep as.length s as vs hrep rfl

/-- Claim C10: copy assignment between distinct lists first destroys every
element of the left-hand side (by repeated `pop_back`), then copies the
right-hand side element by element; execution interrupted after `k` copy
iterations leaves the left-hand side holding exactly the first `k` elements
of the right-hand side, the original contents already gone, and the full run
coincides with the complete assignment. -/
theorem assign_clears_then_copies (T : Type) (lhs rhs : ListState T)
    (as : List Nat) (vs : List T) (as' : List Nat) (vs' : List T) (k : Nat)
    (h1 : ListRep lhs as vs) (h2 : ListRep rhs as' vs') :
    ListState.toList (ListState.clearAll lhs) = some [] ∧
    (ListState.clearAll lhs).size_ = 0 ∧
    ListState.toList (ListState.assign lhs rhs) = some vs' ∧
    ListState.toList (ListState.assignUpTo lhs rhs k) = some (vs'.take k) ∧
    ListState.assignUpTo lhs rhs vs'.length = ListState.assign lhs rhs := by
  have hcl := clearAll_rep h1
  have htl' := toList_rep h2
  have hclsz : (ListState.clearAll lhs).size_ = 0 := by
    obtain ⟨b, e, -, -, -, -, -, -, h⟩ := hcl
    simpa using h
  refine ⟨toList_rep hcl, hclsz, ?_, ?_, ?_⟩
  · unfold ListState.assign ListState.copy_
    rw [htl']
    obtain ⟨as'', h3⟩ := foldl_push_back_rep vs' hcl
    have h3' : ListRep (vs'.foldl ListState.push_back lhs.clearAll) as'' vs' := by
      simpa using h3
    exact toList_rep h3'
  · unfold ListState.assignUpTo
    rw [htl']
    obtain ⟨as'', h3⟩ := foldl_push_back_rep (vs'.take k) hcl
    have h3' : ListRep ((vs'.take k).foldl ListState.push_back lhs.clearAll)
        as'' (vs'.take k) := by
      simpa using h3
    exact toList_rep h3'
  · unfold ListState.assignUpTo ListState.assign ListState.copy_
    rw [htl']
    show (vs'.take vs'.length).foldl ListState.push_back lhs.clearAll
      = vs'.foldl ListState.push_back lhs.clearAll
    rw [List.take_length]

/-- Witness for C10: assigning `[1, 2]` over `[9]`, with the copy loop cut
after one iteration, leaves exactly `[1]`; the full assignment yields `[1, 2]`. -/
theorem assign_clears_then_copies_witness :
    ListState.toList (ListState.assign (ListState.listNew.push_back 9)
        ((ListState.listNew.push_back 1).push_back 2)) = some (([] ++ [1]) ++ [2]) ∧
    ListState.toList (ListState.assignUpTo (ListState.listNew.push_back 9)
        ((ListState.listNew.push_back 1).push_back 2) 1)
      = some ((([] ++ [1]) ++ [2]).take 1) := by
  have h := assign_clears_then_copies Nat (ListState.listNew.push_back 9)
    ((ListState.listNew.push_back 1).push_back 2)
    ([] ++ [ListState.listNew.fresh]) ([] ++ [9])
    (([] ++ [ListState.listNew.fresh])
      ++ [(ListState.listNew.push_back 1).fresh]) (([] ++ [1]) ++ [2]) 1
    (push_back_rep (listNew_rep (T := Nat)) 9)
    (push_back_rep (push_back_rep (listNew_rep (T := Nat)) 1) 2)
  exact ⟨h.2.2.1, h.2.2.2.1⟩

/-- Walking commutes with taking one extra step at the end. -/
theorem walkN_succ {T : Type} (s : ListState T) :
    ∀ (k : Nat) (p : Ptr),
      s.walkN p (k + 1) = (s.derefPtr (s.walkN p k)).bind LNode.next
  | 0, p => rfl
  | k + 1, p => walkN_succ s k ((s.derefPtr p).bind LNode.next)

/-- `iterAt` is a forward walk from `begin()`. -/
theorem iterAt_eq_walkN {T : Type} (s : ListState T) :
    ∀ k : Nat, s.iterAt k = s.walkN s.beginIt k
  | 0 => rfl
  | k + 1 => by
    show (s.derefPtr (s.iterAt k)).bind LNode.next = _
    rw [iterAt_eq_walkN s k, ← walkN_succ]

/-- Walking `k` steps along a well-formed segment lands on the `k`-th node
(or the end sentinel). -/
theorem walkN_seg {T : Type} (s : ListState T) (e : Nat) :
    ∀ (as : List Nat) (vs : List T) (pl : Ptr) (k : Nat),
      as.length = vs.length → k ≤ as.length →
      chain s.heap pl (as.zip (vs.map some) ++ [(e, (none : Option T))]) none →
      s.walkN (as.head?.or (some e)) k = (as.drop k).head?.or (some e)
  | as, vs, pl, 0, _, _, _ => rfl
  | [], vs, pl, k + 1, hlen, hk, _ => by simp at hk
  | a :: as', [], pl, k + 1, hlen, _, _ => by simp at hlen
  | a :: as', v :: vs', pl, k + 1, hlen, hk, hch => by
    have hlen' : as'.length = vs'.length := by simpa using hlen
    obtain ⟨hnode, hch2⟩ := hch
    have hstep : s.walkN (some a) (k + 1) = s.walkN (as'.head?.or (some e)) k := by
      show s.walkN ((s.derefPtr (some a)).bind LNode.next) k = _
      have hnx : (s.derefPtr (some a)).bind LNode.next = as'.head?.or (some e) := by
        show (s.heap a).bind LNode.next = _
        rw [hnode]
        show headPtrD (as'.zip (vs'.map some) ++ [(e, (none : Option T))]) none = _
        exact headPtrD_zip_sentinel as' vs' e hlen' none
      rw [hnx]
    show s.walkN (some a) (k + 1) = ((a :: as').drop (k + 1)).head?.or (some e)
    rw [hstep]
    exact walkN_seg s e as' vs' (some a) k hlen' (by simpa using hk) hch2

/-- The iterator reached by `k` increments from `begin()` references the
`k`-th live node (or `end()` when `k` equals the length). -/
theorem iterAt_rep {T : Type} {s : ListState T} {as : List Nat} {vs : List T}
    (hrep : ListRep s as vs) (k : Nat) (hk : k ≤ as.length) :
    s.iterAt k = (as.drop k).head?.or s.end_ := by
  obtain ⟨b, e, hb, he, hlen0, hch, hnd, hfr, hsz⟩ := hrep
  unfold nodeList at hch
  obtain ⟨hbnode, hch2⟩ := hch
  have hbIt : s.beginIt = as.head?.or (some e) := by
    have h1 : s.beginIt = (s.heap b).bind LNode.next := by
      simp only [ListState.beginIt, ListState.derefPtr, hb]
      rfl
    rw [h1, hbnode]
    show headPtrD (as.zip (vs.map some) ++ [(e, (none : Option T))]) none
      = as.head?.or (some e)
    exact headPtrD_zip_sentinel as vs e hlen0 none
  rw [iterAt_eq_walkN, hbIt, he]
  exact walkN_seg s e as vs (some b) k hlen0 hk hch2

namespace LOp

/-- Valid steps change the abstract sequence length exactly as `nextN`. -/
theorem specStep_length {T : Type} (vs : List T) (op : LOp T)
    (hop : legal vs.length op = true) :
    (specStep vs op).length = nextN vs.length op := by
  cases op with
  | pushF v => simp [specStep, nextN]
  | pushB v => simp [specStep, nextN]
  | insAt k v =>
    have hk : k ≤ vs.length := by simpa [legal] using hop
    simp [specStep, nextN, List.length_take, List.length_drop]
    omega
  | popF => simp [specStep, nextN]
  | popB => simp [specStep, nextN]
  | eraseAt k =>
    have hk : k < vs.length := by simpa [legal] using hop
    simp [specStep, nextN, List.length_take, List.length_drop]
    omega

end LOp

/-- One public mutating operation at a valid position refines the abstract
sequence semantics. -/
theorem lstep_rep {T : Type} {s : ListState T} {as : List Nat} {vs : List T}
    (hrep : ListRep s as vs) (op : LOp T) (hop : LOp.legal vs.length op = true) :
    ∃ as', ListRep (s.lstep op) as' (LOp.specStep vs op) := by
  have hlen := hrep.lengths
  cases op with
  | pushF v => exact ⟨s.fresh :: as, push_front_rep hrep v⟩
  | pushB v => exact ⟨as ++ [s.fresh], push_back_rep hrep v⟩
  | insAt k v =>
    have hk : k ≤ as.length := by
      have : k ≤ vs.length := by simpa [LOp.legal] using hop
      omega
    have hit := iterAt_rep hrep k hk
    have heq : s.lstep (.insAt k v)
        = s.insert_before_ ((as.drop k).head?.or s.end_) v := by
      show s.insert_before_ (s.iterAt k) v = _
      rw [hit]
    have hrep' : ListRep s (as.take k ++ as.drop k) (vs.take k ++ vs.drop k) := by
      rw [List.take_append_drop, List.take_append_drop]
      exact hrep
    have hlent : (as.take k).length = (vs.take k).length := by
      simp [List.length_take, hlen]
    have h := insert_before_rep v hrep' hlent
    rw [heq]
    exact ⟨as.take k ++ s.fresh :: as.drop k, h⟩
  | popF =>
    cases vs with
    | nil =>
      have has : as = [] := List.eq_nil_of_length_eq_zero (by simpa using hlen)
      subst has
      have hsz0 : s.size_ = 0 := by
        obtain ⟨b, e, -, -, -, -, -, -, h⟩ := hrep
        simpa using h
      have hnoop : s.lstep .popF = s := by
        show s.pop_front = s
        unfold ListState.pop_front
        rw [if_neg (by omega)]
      rw [hnoop]
      exact ⟨[], hrep⟩
    | cons v vs' =>
      cases as with
      | nil => simp at hlen
      | cons a as' => exact ⟨as', pop_front_rep hrep⟩
  | popB =>
    cases vs with
    | nil =>
      have has : as = [] := List.eq_nil_of_length_eq_zero (by simpa using hlen)
      subst has
      have hsz0 : s.size_ = 0 := by
        obtain ⟨b, e, -, -, -, -, -, -, h⟩ := hrep
        simpa using h
      have hnoop : s.lstep .popB = s := by
        show s.pop_back = s
        unfold ListState.pop_back
        rw [if_neg (by omega)]
      rw [hnoop]
      exact ⟨[], hrep⟩
    | cons v vs' =>
      cases as with
      | nil => simp at hlen
      | cons a as' =>
        obtain ⟨L, c, hc⟩ : ∃ L c, a :: as' = L ++ [c] := by
          rcases List.eq_nil_or_concat (a :: as') with h | ⟨L, c, hc⟩
          · exact absurd h (by simp)
          · exact ⟨L, c, by rw [hc]; simp [List.concat_eq_append]⟩
        obtain ⟨M, w, hm⟩ : ∃ M w, v :: vs' = M ++ [w] := by
          rcases List.eq_nil_or_concat (v :: vs') with h | ⟨M, w, hm⟩
          · exact absurd h (by simp)
          · exact ⟨M, w, by rw [hm]; simp [List.concat_eq_append]⟩
        have hlen2 : L.length = M.length := by
          have h1 : (a :: as').length = (v :: vs').length := hlen
          rw [hc, hm] at h1
          simpa using h1
        have hrep2 : ListRep s (L ++ [c]) (M ++ [w]) := by
          rw [← hc, ← hm]
          exact hrep
        have hback := pop_back_rep hrep2 hlen2
        have hdrop : (v :: vs').dropLast = M := by
          rw [hm]
          simp
        show ∃ as', ListRep s.pop_back as' (v :: vs').dropLast
        rw [hdrop]
        exact ⟨L, hback⟩
  | eraseAt k =>
    have hkv : k < vs.length := by simpa [LOp.legal] using hop
    have hk : k < as.length := by omega
    have hit := iterAt_rep hrep k (le_of_lt hk)
    rw [List.drop_eq_getElem_cons hk] at hit
    have heq : s.lstep (.eraseAt k) = s.erase_ (some as[k]) := by
      show (s.erase (s.iterAt k)).2 = _
      rw [hit]
      rfl
    have hsplit_as : as = as.take k ++ as[k] :: as.drop (k + 1) := by
      rw [← List.drop_eq_getElem_cons hk, List.take_append_drop]
    have hsplit_vs : vs = vs.take k ++ vs[k] :: vs.drop (k + 1) := by
      rw [← List.drop_eq_getElem_cons hkv, List.take_append_drop]
    have hrep' : ListRep s
        (as.take k ++ as[k] :: as.drop (k + 1))
        (vs.take k ++ vs[k] :: vs.drop (k + 1)) := by
      rw [← hsplit_as, ← hsplit_vs]
      exact hrep
    have hlent : (as.take k).length = (vs.take k).length := by
      simp [List.length_take, hlen]
    have h := erase_rep hrep' hlent
    rw [heq]
    refine ⟨as.take k ++ as.drop (k + 1), ?_⟩
    show ListRep (s.erase_ (some as[k]))
      (as.take k ++ as.drop (k + 1)) (vs.take k ++ vs.drop (k + 1))
    exact h

/-- A valid operation sequence refines the abstract sequence semantics. -/
theorem lrun_rep {T : Type} :
    ∀ (ops : List (LOp T)) (s : ListState T) (as : List Nat) (vs : List T),
      ListRep s as vs → LOp.validFrom vs.length ops = true →
      ∃ as', ListRep (s.lrun ops) as' (LOp.specRun vs ops)
  | [], s, as, vs, hrep, _ => ⟨as, hrep⟩
  | op :: ops, s, as, vs, hrep, hv => by
    simp only [LOp.validFrom, Bool.and_eq_true] at hv
    obtain ⟨hop, hv'⟩ := hv
    obtain ⟨as', h1⟩ := lstep_rep hrep op hop
    have hlen' := LOp.specStep_length vs op hop
    exact lrun_rep ops (s.lstep op) as' _ h1 (by rw [hlen']; exact hv')

/-- Valid runs keep `length + removals = initial length + insertions`. -/
theorem spec_count {T : Type} :
    ∀ (ops : List (LOp T)) (l : List T),
      LOp.validFrom l.length ops = true →
      (LOp.specRun l ops).length + LOp.remCount l.length ops
        = l.length + LOp.insCount ops
  | [], l, _ => by simp [LOp.specRun, LOp.remCount, LOp.insCount]
  | op :: ops, l, hv => by
    simp only [LOp.validFrom, Bool.and_eq_true] at hv
    obtain ⟨hop, hv'⟩ := hv
    have hlen' := LOp.specStep_length l op hop
    have ih := spec_count ops (LOp.specStep l op) (by rw [hlen']; exact hv')
    cases op with
    | pushF v =>
      simp only [LOp.specRun, LOp.remCount, LOp.insCount, List.foldl_cons] at ih ⊢
      simp only [LOp.specStep, LOp.nextN, List.length_cons] at ih ⊢
      omega
    | pushB v =>
      simp only [LOp.specRun, LOp.remCount, LOp.insCount, List.foldl_cons] at ih ⊢
      simp only [LOp.specStep, LOp.nextN, List.length_append, List.length_cons,
        List.length_nil, Nat.zero_add] at ih ⊢
      omega
    | insAt k v =>
      have hk : k ≤ l.length := by simpa [LOp.legal] using hop
      simp only [LOp.specRun, LOp.remCount, LOp.insCount, List.foldl_cons] at ih ⊢
      simp only [LOp.specStep, LOp.nextN] at ih ⊢
      have hlen2 : (l.take k ++ v :: l.drop k).length = l.length + 1 := by
        simp [List.length_take, List.length_drop]
        omega
      rw [hlen2] at ih
      omega
    | popF =>
      simp only [LOp.specRun, LOp.remCount, LOp.insCount, List.foldl_cons] at ih ⊢
      simp only [LOp.specStep, LOp.nextN] at ih ⊢
      have hlen2 : l.tail.length = l.length - 1 := by simp
      rw [hlen2] at ih
      cases l with
      | nil => simpa using ih
      | cons x xs => simp at ih ⊢; omega
    | popB =>
      simp only [LOp.specRun, LOp.remCount, LOp.insCount, List.foldl_cons] at ih ⊢
      simp only [LOp.specStep, LOp.nextN] at ih ⊢
      have hlen2 : l.dropLast.length = l.length - 1 := by simp
      rw [hlen2] at ih
      cases l with
      | nil => simpa using ih
      | cons x xs => simp at ih ⊢; omega
    | eraseAt k =>
      have hk : k < l.length := by simpa [LOp.legal] using hop
      simp only [LOp.specRun, LOp.remCount, LOp.insCount, List.foldl_cons] at ih ⊢
      simp only [LOp.specStep, LOp.nextN] at ih ⊢
      have hlen2 : (l.take k ++ l.drop (k + 1)).length = l.length - 1 := by
        simp [List.length_take, List.length_drop]
        omega
      rw [hlen2] at ih
      omega

/-- Claim C6: after any valid sequence of `push_front`, `push_back`,
`insert` (at valid positions), `pop_front`, `pop_back` and `erase` (at live
nodes) starting from the empty list, `size()` equals the number of
successful insertions minus the number of successful removals, and also
equals the number of live (non-sentinel) nodes in the chain. -/
theorem list_size_invariant (T : Type) (ops : List (LOp T))
    (hv : LOp.validFrom 0 ops = true) :
    ∃ as vs, ListRep (ListState.listNew.lrun ops) as vs ∧
      (ListState.listNew.lrun ops).size_ + LOp.remCount 0 ops
        = LOp.insCount ops ∧
      LOp.remCount 0 ops ≤ LOp.insCount ops ∧
      (ListState.listNew.lrun ops).size_
        = LOp.insCount ops - LOp.remCount 0 ops ∧
      (ListState.listNew.lrun ops).size_ = as.length := by
  obtain ⟨as, hrep⟩ := lrun_rep ops ListState.listNew [] [] listNew_rep hv
  have hcount := spec_count ops [] hv
  have hsz : (ListState.listNew.lrun ops).size_ = as.length := by
    obtain ⟨b, e, -, -, -, -, -, -, h⟩ := hrep
    exact h
  have hlenv := hrep.lengths
  simp only [List.length_nil] at hcount
  refine ⟨as, LOp.specRun [] ops, hrep, by omega, by omega, by omega, hsz⟩

/-- Witness for C6: a mixed history of pushes, a middle insert, pops (one on
the already-empty list) and an erase. -/
theorem list_size_invariant_witness :
    ∃ as vs, ListRep (ListState.listNew.lrun
        [.pushB 1, .pushF 2, .insAt 1 5, .eraseAt 0, .popB, .popF, .popF]) as vs ∧
      (ListState.listNew.lrun
        [.pushB 1, .pushF 2, .insAt 1 5, .eraseAt 0, .popB, .popF, .popF]).size_
        + LOp.remCount 0
            [.pushB 1, .pushF 2, .insAt 1 5, .eraseAt 0, .popB, .popF, .popF]
        = LOp.insCount
            ([.pushB 1, .pushF 2, .insAt 1 5, .eraseAt 0, .popB, .popF, .popF]
              : List (LOp Nat)) ∧
      LOp.remCount 0
          [.pushB 1, .pushF 2, .insAt 1 5, .eraseAt 0, .popB, .popF, .popF]
        ≤ LOp.insCount
            ([.pushB 1, .pushF 2, .insAt 1 5, .eraseAt 0, .popB, .popF, .popF]
              : List (LOp Nat)) ∧
      (ListState.listNew.lrun
        [.pushB 1, .pushF 2, .insAt 1 5, .eraseAt 0, .popB, .popF, .popF]).size_
        = LOp.insCount
            ([.pushB 1, .pushF 2, .insAt 1 5, .eraseAt 0, .popB, .popF, .popF]
              : List (LOp Nat))
          - LOp.remCount 0
              [.pushB 1, .pushF 2, .insAt 1 5, .eraseAt 0, .popB, .popF, .popF] ∧
      (ListState.listNew.lrun
        [.pushB 1, .pushF 2, .insAt 1 5, .eraseAt 0, .popB, .popF, .popF]).size_
        = as.length :=
  list_size_invariant Nat
    [.pushB 1, .pushF 2, .insAt 1 5, .eraseAt 0, .popB, .popF, .popF] (by rfl)
